import Mathlib

/-!
Verification of the dependency-graph core of the package visualiser
(`src/main.py`): the DFS graph builder `dfs_build_graph`, the reverse
dependency resolver `get_reverse_deps` and the ASCII tree renderer
`to_ascii_tree`, embedded shallowly.  Python's recursion is embedded with
an explicit fuel parameter returning `Option`; termination of the original
program corresponds to sufficiency theorems `∃ fuel, (… fuel …).isSome`.
Python sets are embedded as lists with `List.insert` / `List.erase`;
Python dicts as association lists with first-match lookup and
insert-or-update assignment (`setKey`).
-/

/-- `charsPfx n h` : the character list `n` is a prefix of `h`. -/
def charsPfx : List Char → List Char → Bool
  | [], _ => true
  | _ :: _, [] => false
  | a :: as, b :: bs => a == b && charsPfx as bs

/-- `charsSub n h` : the character list `n` occurs contiguously inside `h`
(Python's `n in h` on strings). -/
def charsSub : List Char → List Char → Bool
  | n, [] => charsPfx n []
  | n, c :: cs => charsPfx n (c :: cs) || charsSub n cs

/-- Python `filter_str in d` for strings. -/
def strContains (filterStr d : String) : Bool :=
  charsSub filterStr.toList d.toList

/-- Lines 299–302 of `main.py`: with an empty filter string the raw list is
kept unchanged, otherwise every dependency whose name contains the
substring is dropped (order preserved by `List.filter`). -/
def applyFilter (filterStr : String) (raw : List String) : List String :=
  if filterStr = "" then raw else raw.filter (fun d => !(strContains filterStr d))

/-- Python dict assignment `g[k] = v` on an association list: update the
first entry with key `k` in place, or append at the end. -/
def setKey (g : List (String × List String)) (k : String) (v : List String) :
    List (String × List String) :=
  match g with
  | [] => [(k, v)]
  | (k', v') :: rest => if k' = k then (k, v) :: rest else (k', v') :: setKey rest k v

/-- The mutable state threaded through `dfs_build_graph`: the graph being
built, the visited set, the recursion stack, plus a log of the names passed
to `deps_func` (one entry per source query, in call order). -/
structure BuildState where
  graph : List (String × List String)
  visited : List String
  recStack : List String
  calls : List String
deriving Repr, DecidableEq

/-- The empty state the top-level build starts from (`main.py` lines 480–482). -/
def initState : BuildState := ⟨[], [], [], []⟩

/-- The loop `for dep in filtered: if dfs_build_graph(dep, …): cycle = True`
(lines 310–316), abstracted over the recursive call `f`. -/
def runChildren (f : String → Nat → BuildState → Option (BuildState × Bool)) :
    List String → Nat → BuildState → Option (BuildState × Bool)
  | [], _, st => some (st, false)
  | d :: ds, cd, st =>
    match f d cd st with
    | none => none
    | some (st1, c1) =>
      match runChildren f ds cd st1 with
      | none => none
      | some (st2, c2) => some (st2, c1 || c2)

/-- `dfs_build_graph` (lines 279–319 of `main.py`).  `depsOf` is the
dependency source, `fs` the filter substring, `md` the depth limit
(`0` = unlimited), `cd` the current depth.  Fuel-indexed: `none` means the
fuel ran out before the Python recursion returned. -/
def dfsBuildGraph (depsOf : String → List String) (fs : String) (md : Nat) :
    Nat → String → Nat → BuildState → Option (BuildState × Bool)
  | 0, _, _, _ => none
  | fuel + 1, pkg, cd, st =>
    if pkg ∈ st.recStack then some (st, true)
    else if pkg ∈ st.visited then some (st, false)
    else
      let st1 : BuildState :=
        { st with visited := List.insert pkg st.visited,
                  recStack := List.insert pkg st.recStack }
      let filtered := applyFilter fs (depsOf pkg)
      let st2 : BuildState :=
        { st1 with graph := setKey st1.graph pkg filtered,
                   calls := st1.calls ++ [pkg] }
      if md > 0 ∧ cd ≥ md then
        some ({ st2 with recStack := st2.recStack.erase pkg }, false)
      else
        match runChildren (fun d cd' st' => dfsBuildGraph depsOf fs md fuel d cd' st')
            filtered (cd + 1) st2 with
        | none => none
        | some (st3, cycle) =>
          some ({ st3 with recStack := st3.recStack.erase pkg }, cycle)

/-- The test-repository dependency source (`main.py` line 463):
`test_repo.get(p, [])` over a finite association list. -/
def depsOfRepo (repo : List (String × List String)) (p : String) : List String :=
  (List.lookup p repo).getD []

/-- `rev.setdefault(d, []).append(p)` (line 327 of `main.py`). -/
def revAdd (rev : List (String × List String)) (d p : String) :
    List (String × List String) :=
  setKey rev d (((List.lookup d rev).getD []) ++ [p])

/-- The inverted adjacency view built by lines 324–327 of `main.py`:
for every entry `(p, deps)` of the graph and every `d ∈ deps`, append `p`
to `rev[d]`. -/
def buildRev (graph : List (String × List String)) : List (String × List String) :=
  graph.foldl (fun rev e => e.2.foldl (fun r d => revAdd r d e.1) rev) []

/-- The state of the inner `dfs_rev` of `get_reverse_deps`: the result set
and its own visited set, both Python sets. -/
structure RevState where
  result : List String
  visited : List String
deriving Repr, DecidableEq

/-- The loop `for parent in rev.get(node, []): result.add(parent);
dfs_rev(parent)` (lines 336–338), abstracted over the recursive call `f`. -/
def revChildren (f : String → RevState → Option RevState) :
    List String → RevState → Option RevState
  | [], s => some s
  | p :: ps, s =>
    match f p { s with result := List.insert p s.result } with
    | none => none
    | some s1 => revChildren f ps s1

/-- The inner `dfs_rev` of `get_reverse_deps` (lines 332–338 of `main.py`),
fuel-indexed. -/
def dfsRev (rev : List (String × List String)) :
    Nat → String → RevState → Option RevState
  | 0, _, _ => none
  | fuel + 1, node, s =>
    if node ∈ s.visited then some s
    else revChildren (fun p s' => dfsRev rev fuel p s')
      ((List.lookup node rev).getD []) { s with visited := List.insert node s.visited }

/-- `get_reverse_deps(target, graph)` (lines 322–341 of `main.py`):
build the inverted view, run `dfs_rev` from `target` on fresh empty
result/visited sets, return the result set. -/
def getReverseDeps (fuel : Nat) (target : String)
    (graph : List (String × List String)) : Option (List String) :=
  (dfsRev (buildRev graph) fuel target ⟨[], []⟩).map RevState.result

/-- The child loop of `to_ascii_tree` (lines 359–362 of `main.py`):
`is_last_dep` is true exactly for the final element. -/
def asciiChildren (f : String → Bool → Option String) : List String → Option String
  | [] => some ""
  | [d] => f d true
  | d :: d2 :: ds =>
    match f d false with
    | none => none
    | some s1 =>
      match asciiChildren f (d2 :: ds) with
      | none => none
      | some s2 => some (s1 ++ s2)

/-- `to_ascii_tree(root, graph, prefix, is_last, path)` (lines 344–364 of
`main.py`), fuel-indexed.  The Python code adds `root` to the shared `path`
set before the child loop and removes it after, which is the same as
passing `List.insert root path` to every child call. -/
def toAsciiTree (graph : List (String × List String)) :
    Nat → String → String → Bool → List String → Option String
  | 0, _, _, _, _ => none
  | fuel + 1, root, pfx, isLast, path =>
    if root ∈ path then
      some (pfx ++ (if isLast then "└── " else "├── ") ++ root ++ " (цикл)\n")
    else
      let firstLine := pfx ++ (if isLast then "└── " else "├── ") ++ root ++ "\n"
      let deps := (List.lookup root graph).getD []
      let subPfx := pfx ++ (if isLast then "    " else "│   ")
      match asciiChildren
          (fun d l => toAsciiTree graph fuel d subPfx l (List.insert root path)) deps with
      | none => none
      | some rest => some (firstLine ++ rest)

/-- Direct dependency relation of a finished graph: `p` has an entry whose
dependency list contains `d`. -/
def GEdge (graph : List (String × List String)) (p d : String) : Prop :=
  ∃ deps, (p, deps) ∈ graph ∧ d ∈ deps

/-- `x` transitively depends on `target` via one or more forward edges. -/
def TransDepends (graph : List (String × List String)) (x target : String) : Prop :=
  Relation.TransGen (GEdge graph) x target

/-- Names reachable from `root` through filter-surviving edges of the
dependency source (the root itself is never filtered). -/
inductive FReach (repo : List (String × List String)) (fs : String) (root : String) :
    String → Prop
  | root : FReach repo fs root root
  | step {x d : String} : FReach repo fs root x →
      d ∈ applyFilter fs (depsOfRepo repo x) → FReach repo fs root d

/-- `x` survives the filter: if the filter string is non-empty, `x` does not
contain it. -/
def FilterSafe (fs x : String) : Prop := fs ≠ "" → strContains fs x = false

/-- The state invariant of `dfs_build_graph`, holding at every call
boundary of a build that starts from `initState`: the recursion stack is
contained in the visited set, the graph keys are exactly the visited names
and are pairwise distinct, the source-query log contains exactly the
visited names with no repeats, and every stored dependency list is the
filtered source list of its key. -/
def BInv (depsOf : String → List String) (fs : String) (st : BuildState) : Prop :=
  (∀ x ∈ st.recStack, x ∈ st.visited) ∧
  (st.graph.map Prod.fst).Nodup ∧
  (∀ k, k ∈ st.graph.map Prod.fst ↔ k ∈ st.visited) ∧
  st.calls.Nodup ∧
  (∀ k, k ∈ st.calls ↔ k ∈ st.visited) ∧
  (∀ k v, (k, v) ∈ st.graph → v = applyFilter fs (depsOf k))

/-- All filter-surviving direct dependencies of `k` are visited in `st`. -/
def CompleteAt (depsOf : String → List String) (fs : String) (st : BuildState)
    (k : String) : Prop :=
  ∀ d ∈ applyFilter fs (depsOf k), d ∈ st.visited

/-- What one completed call `dfs_build_graph(pkg, …)` does to the state:
visited grows monotonically, the recursion stack is restored exactly,
every newly visited name is `pkg` itself or survived the filter, and from
an invariant state the invariant is preserved, `pkg` ends up visited, and
(without a depth limit) every newly visited name has all its filtered
dependencies visited. -/
def StepProp (depsOf : String → List String) (fs : String) (md : Nat)
    (pkg : String) (st st' : BuildState) : Prop :=
  (∀ x ∈ st.visited, x ∈ st'.visited) ∧
  st'.recStack = st.recStack ∧
  (∀ x ∈ st'.visited, x ∈ st.visited ∨ x = pkg ∨ FilterSafe fs x) ∧
  (BInv depsOf fs st → BInv depsOf fs st' ∧ pkg ∈ st'.visited ∧
    (md = 0 → ∀ k ∈ st'.visited, k ∈ st.visited ∨ CompleteAt depsOf fs st' k))

/-- `StepProp` for the child loop over a dependency list. -/
def ListStepProp (depsOf : String → List String) (fs : String) (md : Nat)
    (deps : List String) (st st' : BuildState) : Prop :=
  (∀ x ∈ st.visited, x ∈ st'.visited) ∧
  st'.recStack = st.recStack ∧
  (∀ x ∈ st'.visited, x ∈ st.visited ∨ x ∈ deps ∨ FilterSafe fs x) ∧
  (BInv depsOf fs st → BInv depsOf fs st' ∧ (∀ d ∈ deps, d ∈ st'.visited) ∧
    (md = 0 → ∀ k ∈ st'.visited, k ∈ st.visited ∨ CompleteAt depsOf fs st' k))

/-- Number of elements of `univ` not yet in `seen`: the termination measure
of every DFS in the program. -/
def unvisitedCount (univ seen : List String) : Nat :=
  (univ.filter (fun x => decide (x ∉ seen))).length

/-- A finite universe containing a seed name and every value occurring in
an association list: every name a DFS over the list can reach. -/
def univOf (assoc : List (String × List String)) (seed : String) : List String :=
  seed :: (assoc.map Prod.snd).flatten

/-- `v` is saturated in the reverse DFS state `s`: every parent of `v`
recorded in the inverted view `rev` is already in the result and visited. -/
def RSat (rev : List (String × List String)) (s : RevState) (v : String) : Prop :=
  ∀ p ∈ depsOfRepo rev v, p ∈ s.result ∧ p ∈ s.visited

/-- Soundness invariant of the reverse DFS from `target` over the inverted
view `rev`: every visited node is `target` or an ancestor of it, and every
collected node is an ancestor of it (one or more inverted edges). -/
def RevSound (rev : List (String × List String)) (target : String)
    (s : RevState) : Prop :=
  (∀ v ∈ s.visited, v = target ∨
    Relation.TransGen (fun a b => a ∈ depsOfRepo rev b) v target) ∧
  (∀ r ∈ s.result,
    Relation.TransGen (fun a b => a ∈ depsOfRepo rev b) r target)

/-! ### Basic lemmas about the filter, `setKey` and the guards -/

lemma applyFilter_empty (raw : List String) : applyFilter "" raw = raw := by
  simp [applyFilter]

lemma mem_applyFilter {fs d : String} {raw : List String}
    (h : d ∈ applyFilter fs raw) : d ∈ raw ∧ FilterSafe fs d := by
  by_cases hfs : fs = ""
  · subst hfs
    exact ⟨by simpa [applyFilter] using h, fun h' => absurd rfl h'⟩
  · rw [applyFilter, if_neg hfs] at h
    have := List.mem_filter.mp h
    exact ⟨this.1, fun _ => by simpa using this.2⟩

lemma lookup_setKey (g : List (String × List String)) (k k' : String)
    (v : List String) :
    List.lookup k' (setKey g k v) = if k' = k then some v else List.lookup k' g := by
  induction g with
  | nil =>
    by_cases h : k' = k
    · simp [setKey, List.lookup_cons, h]
    · simp [setKey, List.lookup_cons, h, beq_false_of_ne h]
  | cons e rest ih =>
    obtain ⟨a, b⟩ := e
    by_cases hak : a = k
    · subst hak
      by_cases h : k' = a
      · simp [setKey, List.lookup_cons, h]
      · simp [setKey, List.lookup_cons, h, beq_false_of_ne h]
    · by_cases h : k' = a
      · subst h
        simp [setKey, hak, List.lookup_cons, Ne.symm hak]
      · simp [setKey, hak, List.lookup_cons, h, beq_false_of_ne h, ih]

lemma mem_setKey {g : List (String × List String)} {k : String} {v : List String}
    {e : String × List String} (h : e ∈ setKey g k v) : e = (k, v) ∨ e ∈ g := by
  induction g with
  | nil => simpa [setKey] using h
  | cons e' rest ih =>
    obtain ⟨a, b⟩ := e'
    by_cases hak : a = k
    · subst hak
      rcases by simpa [setKey] using h with h | h
      · exact Or.inl h
      · exact Or.inr (List.mem_cons_of_mem _ h)
    · rcases by simpa [setKey, hak] using h with h | h
      · exact Or.inr (by simp [h])
      · rcases ih h with h | h
        · exact Or.inl h
        · exact Or.inr (List.mem_cons_of_mem _ h)

lemma setKey_of_not_mem {g : List (String × List String)} {k : String}
    (v : List String) (h : k ∉ g.map Prod.fst) : setKey g k v = g ++ [(k, v)] := by
  induction g with
  | nil => simp [setKey]
  | cons e rest ih =>
    obtain ⟨a, b⟩ := e
    simp only [List.map_cons, List.mem_cons] at h
    push_neg at h
    simp [setKey, Ne.symm h.1, ih h.2]

lemma keys_setKey {g : List (String × List String)} {k : String} (v : List String)
    (x : String) :
    x ∈ (setKey g k v).map Prod.fst ↔ x = k ∨ x ∈ g.map Prod.fst := by
  induction g with
  | nil => simp [setKey]
  | cons e rest ih =>
    obtain ⟨a, b⟩ := e
    by_cases hak : a = k
    · subst hak
      simp [setKey]
    · simp only [setKey, if_neg hak, List.map_cons, List.mem_cons, ih]
      tauto

lemma dfs_cycleHit (depsOf : String → List String) (fs : String) (md fuel : Nat)
    (pkg : String) (cd : Nat) (st : BuildState) (h : pkg ∈ st.recStack) :
    dfsBuildGraph depsOf fs md (fuel + 1) pkg cd st = some (st, true) := by
  simp [dfsBuildGraph, h]

lemma dfs_alreadyVisited (depsOf : String → List String) (fs : String) (md fuel : Nat)
    (pkg : String) (cd : Nat) (st : BuildState) (h1 : pkg ∉ st.recStack)
    (h2 : pkg ∈ st.visited) :
    dfsBuildGraph depsOf fs md (fuel + 1) pkg cd st = some (st, false) := by
  simp [dfsBuildGraph, h1, h2]

lemma dfs_depthCut (depsOf : String → List String) (fs : String) (md fuel : Nat)
    (pkg : String) (cd : Nat) (st : BuildState) (h1 : pkg ∉ st.recStack)
    (h2 : pkg ∉ st.visited) (h3 : 0 < md) (h4 : md ≤ cd) :
    dfsBuildGraph depsOf fs md (fuel + 1) pkg cd st =
      some (⟨setKey st.graph pkg (applyFilter fs (depsOf pkg)),
             List.insert pkg st.visited, st.recStack, st.calls ++ [pkg]⟩, false) := by
  simp [dfsBuildGraph, h1, h2, h3, h4, List.insert_of_not_mem]

lemma dfs_revisit_frame (depsOf : String → List String) (fs : String)
    (md fuel : Nat) (pkg : String) (cd : Nat) (st st' : BuildState) (b : Bool)
    (h2 : pkg ∈ st.visited)
    (h : dfsBuildGraph depsOf fs md (fuel + 1) pkg cd st = some (st', b)) :
    st' = st := by
  by_cases h1 : pkg ∈ st.recStack
  · rw [dfs_cycleHit depsOf fs md fuel pkg cd st h1] at h
    exact (Prod.mk.injEq _ _ _ _ ▸ Option.some.inj h).1.symm
  · rw [dfs_alreadyVisited depsOf fs md fuel pkg cd st h1 h2] at h
    exact (Prod.mk.injEq _ _ _ _ ▸ Option.some.inj h).1.symm

/-! ### The build-state invariant and the main step lemma -/

lemma BInv_init (depsOf : String → List String) (fs : String) :
    BInv depsOf fs initState := by
  refine ⟨?_, ?_, ?_, ?_, ?_, ?_⟩ <;> simp [initState, BInv]

lemma BInv_expand (depsOf : String → List String) (fs : String) (st : BuildState)
    (pkg : String) (rs : List String) (hrs : ∀ x ∈ rs, x = pkg ∨ x ∈ st.visited)
    (hInv : BInv depsOf fs st) (hpv : pkg ∉ st.visited) :
    BInv depsOf fs ⟨setKey st.graph pkg (applyFilter fs (depsOf pkg)),
      List.insert pkg st.visited, rs, st.calls ++ [pkg]⟩ := by
  obtain ⟨h1, h2, h3, h4, h5, h6⟩ := hInv
  have hkeys : pkg ∉ st.graph.map Prod.fst := fun hk => hpv ((h3 pkg).mp hk)
  have hcalls : pkg ∉ st.calls := fun hc => hpv ((h5 pkg).mp hc)
  refine ⟨?_, ?_, ?_, ?_, ?_, ?_⟩
  · intro x hx
    rcases hrs x hx with h | h
    · exact List.mem_insert_iff.mpr (Or.inl h)
    · exact List.mem_insert_iff.mpr (Or.inr h)
  · rw [setKey_of_not_mem _ hkeys]
    simp only [List.map_append, List.map_cons, List.map_nil]
    simp [List.nodup_append, h2, hkeys]
  · intro k
    simp only [keys_setKey, List.mem_insert_iff]
    rw [h3 k]
  · simp [List.nodup_append, h4, hcalls]
  · intro k
    simp only [List.mem_append, List.mem_singleton, List.mem_insert_iff]
    rw [h5 k]
    tauto
  · intro k v hkv
    rcases mem_setKey hkv with h | h
    · injection h with ha hb
      subst ha
      exact hb
    · exact h6 k v h

lemma runChildren_step (depsOf : String → List String) (fs : String) (md : Nat)
    (f : String → Nat → BuildState → Option (BuildState × Bool))
    (hf : ∀ pkg cd st st' b, f pkg cd st = some (st', b) →
      StepProp depsOf fs md pkg st st') :
    ∀ (deps : List String) (cd : Nat) (st st' : BuildState) (b : Bool),
      runChildren f deps cd st = some (st', b) →
      ListStepProp depsOf fs md deps st st' := by
  intro deps
  induction deps with
  | nil =>
    intro cd st st' b h
    simp only [runChildren, Option.some.injEq, Prod.mk.injEq] at h
    obtain ⟨rfl, -⟩ := h
    exact ⟨fun x hx => hx, rfl, fun x hx => Or.inl hx,
      fun hInv => ⟨hInv, by simp, fun _ k hk => Or.inl hk⟩⟩
  | cons d ds ih =>
    intro cd st st' b h
    cases h1 : f d cd st with
    | none =>
      simp only [runChildren, h1] at h
      exact Option.noConfusion h
    | some p =>
      obtain ⟨st1, c1⟩ := p
      cases h2 : runChildren f ds cd st1 with
      | none =>
        simp only [runChildren, h1, h2] at h
        exact Option.noConfusion h
      | some q =>
        obtain ⟨st2, c2⟩ := q
        simp only [runChildren, h1, h2, Option.some.injEq, Prod.mk.injEq] at h
        obtain ⟨rfl, -⟩ := h
        have S1 := hf d cd st st1 c1 h1
        have S2 := ih cd st1 st2 c2 h2
        obtain ⟨m1, r1, n1, i1⟩ := S1
        obtain ⟨m2, r2, n2, i2⟩ := S2
        refine ⟨fun x hx => m2 x (m1 x hx), r2.trans r1, ?_, ?_⟩
        · intro x hx
          rcases n2 x hx with h | h | h
          · rcases n1 x h with h' | h' | h'
            · exact Or.inl h'
            · exact Or.inr (Or.inl (by simp [h']))
            · exact Or.inr (Or.inr h')
          · exact Or.inr (Or.inl (List.mem_cons_of_mem _ h))
          · exact Or.inr (Or.inr h)
        · intro hInv
          obtain ⟨iA, dA, cA⟩ := i1 hInv
          obtain ⟨iB, dB, cB⟩ := i2 iA
          refine ⟨iB, ?_, ?_⟩
          · intro d' hd'
            rcases List.mem_cons.mp hd' with h | h
            · exact h ▸ m2 d dA
            · exact dB d' h
          · intro hmd k hk
            rcases cB hmd k hk with h | h
            · rcases cA hmd k h with h' | h'
              · exact Or.inl h'
              · exact Or.inr (fun x hx => m2 x (h' x hx))
            · exact Or.inr h

lemma dfs_unfold_go (depsOf : String → List String) (fs : String) (md fuel : Nat)
    (pkg : String) (cd : Nat) (st : BuildState) (h1 : pkg ∉ st.recStack)
    (h2 : pkg ∉ st.visited) (h3 : ¬(md > 0 ∧ cd ≥ md)) :
    dfsBuildGraph depsOf fs md (fuel + 1) pkg cd st =
      match runChildren (fun d cd' st' => dfsBuildGraph depsOf fs md fuel d cd' st')
          (applyFilter fs (depsOf pkg)) (cd + 1)
          ⟨setKey st.graph pkg (applyFilter fs (depsOf pkg)),
           List.insert pkg st.visited, List.insert pkg st.recStack,
           st.calls ++ [pkg]⟩ with
      | none => none
      | some (st3, cycle) =>
        some ({ st3 with recStack := st3.recStack.erase pkg }, cycle) := by
  simp only [dfsBuildGraph, if_neg h1, if_neg h2, if_neg h3]

lemma dfs_step (depsOf : String → List String) (fs : String) (md : Nat) :
    ∀ (fuel : Nat) (pkg : String) (cd : Nat) (st st' : BuildState) (b : Bool),
      dfsBuildGraph depsOf fs md fuel pkg cd st = some (st', b) →
      StepProp depsOf fs md pkg st st' := by
  intro fuel
  induction fuel with
  | zero =>
    intro pkg cd st st' b h
    exact Option.noConfusion h
  | succ fuel ih =>
    intro pkg cd st st' b h
    by_cases hrec : pkg ∈ st.recStack
    · rw [dfs_cycleHit depsOf fs md fuel pkg cd st hrec] at h
      simp only [Option.some.injEq, Prod.mk.injEq] at h
      obtain ⟨rfl, -⟩ := h
      exact ⟨fun x hx => hx, rfl, fun x hx => Or.inl hx,
        fun hInv => ⟨hInv, hInv.1 pkg hrec, fun _ k hk => Or.inl hk⟩⟩
    · by_cases hvis : pkg ∈ st.visited
      · rw [dfs_alreadyVisited depsOf fs md fuel pkg cd st hrec hvis] at h
        simp only [Option.some.injEq, Prod.mk.injEq] at h
        obtain ⟨rfl, -⟩ := h
        exact ⟨fun x hx => hx, rfl, fun x hx => Or.inl hx,
          fun hInv => ⟨hInv, hvis, fun _ k hk => Or.inl hk⟩⟩
      · by_cases hdep : md > 0 ∧ cd ≥ md
        · rw [dfs_depthCut depsOf fs md fuel pkg cd st hrec hvis hdep.1 hdep.2] at h
          simp only [Option.some.injEq, Prod.mk.injEq] at h
          obtain ⟨rfl, -⟩ := h
          refine ⟨fun x hx => List.mem_insert_iff.mpr (Or.inr hx), rfl, ?_, ?_⟩
          · intro x hx
            rcases List.mem_insert_iff.mp hx with h | h
            · exact Or.inr (Or.inl h)
            · exact Or.inl h
          · intro hInv
            refine ⟨?_, List.mem_insert_iff.mpr (Or.inl rfl), ?_⟩
            · exact BInv_expand depsOf fs st pkg st.recStack
                (fun x hx => Or.inr (hInv.1 x hx)) hInv hvis
            · intro hmd
              exact absurd hdep.1 (by omega)
        · rw [dfs_unfold_go depsOf fs md fuel pkg cd st hrec hvis hdep] at h
          cases hrc : runChildren
              (fun d cd' st' => dfsBuildGraph depsOf fs md fuel d cd' st')
              (applyFilter fs (depsOf pkg)) (cd + 1)
              ⟨setKey st.graph pkg (applyFilter fs (depsOf pkg)),
               List.insert pkg st.visited, List.insert pkg st.recStack,
               st.calls ++ [pkg]⟩ with
          | none =>
            rw [hrc] at h
            exact Option.noConfusion h
          | some q =>
            obtain ⟨st3, cycle⟩ := q
            rw [hrc] at h
            simp only [Option.some.injEq, Prod.mk.injEq] at h
            obtain ⟨rfl, -⟩ := h
            have LSP := runChildren_step depsOf fs md _
              (fun pkg' cd' stA stB b' hAB => ih pkg' cd' stA stB b' hAB)
              (applyFilter fs (depsOf pkg)) (cd + 1)
              ⟨setKey st.graph pkg (applyFilter fs (depsOf pkg)),
               List.insert pkg st.visited, List.insert pkg st.recStack,
               st.calls ++ [pkg]⟩ st3 cycle hrc
            obtain ⟨m1, r1, n1, i1⟩ := LSP
            have hrec3 : st3.recStack = List.insert pkg st.recStack := r1
            have herase : st3.recStack.erase pkg = st.recStack := by
              rw [hrec3, List.insert_of_not_mem hrec, List.erase_cons_head]
            refine ⟨?_, ?_, ?_, ?_⟩
            · intro x hx
              exact m1 x (List.mem_insert_iff.mpr (Or.inr hx))
            · exact herase
            · intro x hx
              rcases n1 x hx with h | h | h
              · rcases List.mem_insert_iff.mp h with h' | h'
                · exact Or.inr (Or.inl h')
                · exact Or.inl h'
              · exact Or.inr (Or.inr (mem_applyFilter h).2)
              · exact Or.inr (Or.inr h)
            · intro hInv
              have hInv2 := BInv_expand depsOf fs st pkg (List.insert pkg st.recStack)
                (fun x hx => (List.mem_insert_iff.mp hx).imp id (hInv.1 x)) hInv hvis
              obtain ⟨iB, dB, cB⟩ := i1 hInv2
              refine ⟨?_, ?_, ?_⟩
              · obtain ⟨j1, j2, j3, j4, j5, j6⟩ := iB
                refine ⟨?_, j2, j3, j4, j5, j6⟩
                intro x hx
                simp only [herase] at hx
                exact m1 x (List.mem_insert_iff.mpr (Or.inr (hInv.1 x hx)))
              · exact m1 pkg (List.mem_insert_iff.mpr (Or.inl rfl))
              · intro hmd k hk
                rcases cB hmd k hk with h | h
                · rcases List.mem_insert_iff.mp h with h' | h'
                  · subst h'
                    exact Or.inr (fun x hx => dB x hx)
                  · exact Or.inl h'
                · exact Or.inr h

/-! ### Termination: fuel sufficiency -/

lemma unvisitedCount_mono (univ : List String) {v v' : List String}
    (h : ∀ x ∈ v, x ∈ v') : unvisitedCount univ v' ≤ unvisitedCount univ v := by
  unfold unvisitedCount
  rw [← List.countP_eq_length_filter, ← List.countP_eq_length_filter]
  apply List.countP_mono_left
  intro a _ ha
  simp only [decide_eq_true_eq] at *
  exact fun hav => ha (h a hav)

lemma unvisitedCount_cons (a : String) (u seen : List String) :
    unvisitedCount (a :: u) seen =
      (if a ∈ seen then 0 else 1) + unvisitedCount u seen := by
  by_cases h : a ∈ seen
  · simp [unvisitedCount, List.filter_cons, h]
  · simp [unvisitedCount, List.filter_cons, h, Nat.add_comm]

lemma unvisitedCount_strict (univ : List String) {v v' : List String} {pkg : String}
    (hu : pkg ∈ univ) (hnv : pkg ∉ v) (hv' : pkg ∈ v') (h : ∀ x ∈ v, x ∈ v') :
    unvisitedCount univ v' < unvisitedCount univ v := by
  induction univ with
  | nil => cases hu
  | cons a u ih =>
    rw [unvisitedCount_cons, unvisitedCount_cons]
    rcases List.mem_cons.mp hu with rfl | hu'
    · rw [if_pos hv', if_neg hnv]
      have := unvisitedCount_mono u h
      omega
    · have hind : (if a ∈ v' then 0 else 1) ≤ ((if a ∈ v then 0 else 1) : Nat) := by
        by_cases h1 : a ∈ v'
        · simp [h1]
        · have h2 : a ∉ v := fun hx => h1 (h a hx)
          simp [h1, h2]
      have := ih hu'
      omega

lemma runChildren_suff (depsOf : String → List String) (fs : String) (md : Nat)
    (univ : List String) (fuel : Nat)
    (hsuff : ∀ (pkg : String) (cd : Nat) (st : BuildState), pkg ∈ univ →
      unvisitedCount univ st.visited < fuel →
      (dfsBuildGraph depsOf fs md fuel pkg cd st).isSome) :
    ∀ (deps : List String) (cd : Nat) (st : BuildState), (∀ d ∈ deps, d ∈ univ) →
      unvisitedCount univ st.visited < fuel →
      (runChildren (fun d cd' st' => dfsBuildGraph depsOf fs md fuel d cd' st')
        deps cd st).isSome := by
  intro deps
  induction deps with
  | nil => intro cd st _ _; simp [runChildren]
  | cons d ds ih =>
    intro cd st hdeps hcount
    have h1 := hsuff d cd st (hdeps d (by simp)) hcount
    obtain ⟨⟨st1, c1⟩, heq⟩ := Option.isSome_iff_exists.mp h1
    have hm := (dfs_step depsOf fs md fuel d cd st st1 c1 heq).1
    have hcount1 : unvisitedCount univ st1.visited < fuel :=
      lt_of_le_of_lt (unvisitedCount_mono univ hm) hcount
    have h2 := ih cd st1 (fun d' hd' => hdeps d' (by simp [hd'])) hcount1
    obtain ⟨⟨st2, c2⟩, heq2⟩ := Option.isSome_iff_exists.mp h2
    simp [runChildren, heq, heq2]

lemma dfs_suff (depsOf : String → List String) (fs : String) (md : Nat)
    (univ : List String)
    (hclosed : ∀ p d, d ∈ applyFilter fs (depsOf p) → d ∈ univ) :
    ∀ (fuel : Nat) (pkg : String) (cd : Nat) (st : BuildState), pkg ∈ univ →
      unvisitedCount univ st.visited < fuel →
      (dfsBuildGraph depsOf fs md fuel pkg cd st).isSome := by
  intro fuel
  induction fuel with
  | zero => intro pkg cd st _ h; omega
  | succ fuel ih =>
    intro pkg cd st hpkg hcount
    by_cases hrec : pkg ∈ st.recStack
    · rw [dfs_cycleHit depsOf fs md fuel pkg cd st hrec]; simp
    · by_cases hvis : pkg ∈ st.visited
      · rw [dfs_alreadyVisited depsOf fs md fuel pkg cd st hrec hvis]; simp
      · by_cases hdep : md > 0 ∧ cd ≥ md
        · rw [dfs_depthCut depsOf fs md fuel pkg cd st hrec hvis hdep.1 hdep.2]; simp
        · rw [dfs_unfold_go depsOf fs md fuel pkg cd st hrec hvis hdep]
          have hlt : unvisitedCount univ (List.insert pkg st.visited) <
              unvisitedCount univ st.visited :=
            unvisitedCount_strict univ hpkg hvis
              (List.mem_insert_iff.mpr (Or.inl rfl))
              (fun x hx => List.mem_insert_iff.mpr (Or.inr hx))
          have hrc := runChildren_suff depsOf fs md univ fuel
            (fun pkg' cd' st'' h1 h2 => ih pkg' cd' st'' h1 h2)
            (applyFilter fs (depsOf pkg)) (cd + 1)
            ⟨setKey st.graph pkg (applyFilter fs (depsOf pkg)),
             List.insert pkg st.visited, List.insert pkg st.recStack,
             st.calls ++ [pkg]⟩
            (fun d hd => hclosed pkg d hd) (by simpa using by omega)
          obtain ⟨⟨st3, c⟩, heq⟩ := Option.isSome_iff_exists.mp hrc
          rw [heq]
          simp

lemma lookup_mem {l : List (String × List String)} {k : String} {v : List String}
    (h : List.lookup k l = some v) : (k, v) ∈ l := by
  induction l with
  | nil => exact Option.noConfusion h
  | cons e rest ih =>
    obtain ⟨a, b⟩ := e
    by_cases hak : k = a
    · subst hak
      simp only [List.lookup_cons, beq_self_eq_true, if_true] at h
      simp [← Option.some.inj h]
    · simp only [List.lookup_cons, beq_false_of_ne hak, if_false] at h
      exact List.mem_cons_of_mem _ (ih h)

lemma depsOfRepo_subset {repo : List (String × List String)} {p d : String}
    (h : d ∈ depsOfRepo repo p) : d ∈ (repo.map Prod.snd).flatten := by
  unfold depsOfRepo at h
  cases hl : List.lookup p repo with
  | none => rw [hl] at h; simp at h
  | some l =>
    rw [hl] at h
    simp only [Option.getD_some] at h
    exact List.mem_flatten.mpr ⟨l, List.mem_map_of_mem Prod.snd (lookup_mem hl), h⟩

lemma univOf_closed (repo : List (String × List String)) (root fs : String) :
    ∀ p d, d ∈ applyFilter fs (depsOfRepo repo p) → d ∈ univOf repo root := by
  intro p d h
  exact List.mem_cons_of_mem _ (depsOfRepo_subset (mem_applyFilter h).1)

lemma build_terminates (repo : List (String × List String)) (root fs : String)
    (md : Nat) :
    ∃ fuel, (dfsBuildGraph (depsOfRepo repo) fs md fuel root 0 initState).isSome := by
  refine ⟨unvisitedCount (univOf repo root) [] + 1, ?_⟩
  apply dfs_suff (depsOfRepo repo) fs md (univOf repo root)
    (univOf_closed repo root fs) _ root 0 initState (by simp [univOf])
  show unvisitedCount (univOf repo root) initState.visited < _
  simp [initState]

/-! ### Derived facts about a whole build from the empty initial state -/

lemma build_invariant (depsOf : String → List String) (fs : String) (md fuel : Nat)
    (pkg : String) (cd : Nat) (st' : BuildState) (b : Bool)
    (h : dfsBuildGraph depsOf fs md fuel pkg cd initState = some (st', b)) :
    BInv depsOf fs st' ∧ pkg ∈ st'.visited ∧
      (md = 0 → ∀ k ∈ st'.visited, CompleteAt depsOf fs st' k) := by
  have S := dfs_step depsOf fs md fuel pkg cd initState st' b h
  obtain ⟨-, -, -, i⟩ := S
  obtain ⟨iv, pv, c⟩ := i (BInv_init depsOf fs)
  refine ⟨iv, pv, fun hmd k hk => ?_⟩
  rcases c hmd k hk with h' | h'
  · simp [initState] at h'
  · exact h'

/-! ### Claim theorems: the graph builder -/

/-- C1: cycle detection.  A node already on the in-progress path makes the
call return `True` immediately without touching the state (not re-added to
the graph, not recursed into); for the source `A -> B -> A` the build
terminates with `cycle_detected = True` and graph `{A: [B], B: [A]}`; a
self-dependency `A -> [A]` is detected the same way; and after a cycle hit
traversal continues over the remaining dependencies (`C` still gets its
key). -/
theorem cycle_detection_correct :
    (∀ (depsOf : String → List String) (fs : String) (md fuel cd : Nat)
      (pkg : String) (st : BuildState), pkg ∈ st.recStack →
      dfsBuildGraph depsOf fs md (fuel + 1) pkg cd st = some (st, true)) ∧
    dfsBuildGraph (depsOfRepo [("A", ["B"]), ("B", ["A"])]) "" 0 10 "A" 0 initState =
      some (⟨[("A", ["B"]), ("B", ["A"])], ["B", "A"], [], ["A", "B"]⟩, true) ∧
    dfsBuildGraph (depsOfRepo [("A", ["A"])]) "" 0 10 "A" 0 initState =
      some (⟨[("A", ["A"])], ["A"], [], ["A"]⟩, true) ∧
    dfsBuildGraph (depsOfRepo [("A", ["B", "C"]), ("B", ["A"]), ("C", [])]) "" 0 10
        "A" 0 initState =
      some (⟨[("A", ["B", "C"]), ("B", ["A"]), ("C", [])], ["C", "B", "A"], [],
             ["A", "B", "C"]⟩, true) :=
  ⟨fun depsOf fs md fuel cd pkg st h => dfs_cycleHit depsOf fs md fuel pkg cd st h,
   by decide, by decide, by decide⟩

/-- Witness for C1: the cycle-hit equation applied at a concrete state with
`"X"` on the recursion stack. -/
theorem cycle_detection_correct_witness :
    ("X" : String) ∈ (⟨[], [], ["X"], []⟩ : BuildState).recStack ∧
    dfsBuildGraph (fun _ => []) "" 0 1 "X" 0 ⟨[], [], ["X"], []⟩ =
      some (⟨[], [], ["X"], []⟩, true) :=
  ⟨by decide,
   cycle_detection_correct.1 (fun _ => []) "" 0 0 0 "X" ⟨[], [], ["X"], []⟩ (by decide)⟩

/-- C2: for every finite dependency source the build from the empty state
terminates (some fuel suffices), the finished graph's keys are pairwise
distinct (each appears exactly once), and with no depth limit every name
reachable from the root through filter-surviving edges is a key. -/
theorem build_termination_and_coverage (repo : List (String × List String))
    (root fs : String) (md : Nat) :
    (∃ fuel, (dfsBuildGraph (depsOfRepo repo) fs md fuel root 0 initState).isSome) ∧
    (∀ fuel st' b,
      dfsBuildGraph (depsOfRepo repo) fs md fuel root 0 initState = some (st', b) →
      (st'.graph.map Prod.fst).Nodup ∧
      (md = 0 → ∀ x, FReach repo fs root x → x ∈ st'.graph.map Prod.fst)) := by
  refine ⟨build_terminates repo root fs md, ?_⟩
  intro fuel st' b h
  obtain ⟨iv, pv, compl⟩ := build_invariant (depsOfRepo repo) fs md fuel root 0 st' b h
  obtain ⟨j1, j2, j3, j4, j5, j6⟩ := iv
  refine ⟨j2, ?_⟩
  intro hmd x hx
  have hvis : x ∈ st'.visited := by
    induction hx with
    | root => exact pv
    | step hx' hd ih => exact compl hmd _ ih _ hd
  exact (j3 x).mpr hvis

/-- Witness for C2: the source `A -> [B]`, `B -> []` built with fuel 3. -/
theorem build_termination_and_coverage_witness :
    dfsBuildGraph (depsOfRepo [("A", ["B"]), ("B", [])]) "" 0 3 "A" 0 initState =
      some (⟨[("A", ["B"]), ("B", [])], ["B", "A"], [], ["A", "B"]⟩, false) ∧
    ((⟨[("A", ["B"]), ("B", [])], ["B", "A"], [], ["A", "B"]⟩ :
        BuildState).graph.map Prod.fst).Nodup :=
  ⟨by decide,
   ((build_termination_and_coverage [("A", ["B"]), ("B", [])] "A" "" 0).2 3
     ⟨[("A", ["B"]), ("B", [])], ["B", "A"], [], ["A", "B"]⟩ false (by decide)).1⟩

/-- C3: depth limiting.  A node first reached at depth `cd ≥ max_depth`
(with `max_depth > 0`) is still recorded with its filtered but unexpanded
dependency list and none of its dependencies are recursed into; with
`max_depth = 0` the depth guard never fires and the child loop always runs;
and for `max_depth = 1` over `A -> [B]`, `B -> [C]` the result is exactly
`{A: [B], B: [C]}` with `C` absent. -/
theorem depth_limit_boundary :
    (∀ (depsOf : String → List String) (fs : String) (md fuel cd : Nat)
      (pkg : String) (st : BuildState), pkg ∉ st.recStack → pkg ∉ st.visited →
      0 < md → md ≤ cd →
      dfsBuildGraph depsOf fs md (fuel + 1) pkg cd st =
        some (⟨setKey st.graph pkg (applyFilter fs (depsOf pkg)),
               List.insert pkg st.visited, st.recStack, st.calls ++ [pkg]⟩, false)) ∧
    (∀ (depsOf : String → List String) (fs : String) (fuel cd : Nat)
      (pkg : String) (st : BuildState), pkg ∉ st.recStack → pkg ∉ st.visited →
      dfsBuildGraph depsOf fs 0 (fuel + 1) pkg cd st =
        match runChildren (fun d cd' st' => dfsBuildGraph depsOf fs 0 fuel d cd' st')
            (applyFilter fs (depsOf pkg)) (cd + 1)
            ⟨setKey st.graph pkg (applyFilter fs (depsOf pkg)),
             List.insert pkg st.visited, List.insert pkg st.recStack,
             st.calls ++ [pkg]⟩ with
        | none => none
        | some (st3, cycle) =>
          some ({ st3 with recStack := st3.recStack.erase pkg }, cycle)) ∧
    dfsBuildGraph (depsOfRepo [("A", ["B"]), ("B", ["C"])]) "" 1 10 "A" 0 initState =
      some (⟨[("A", ["B"]), ("B", ["C"])], ["B", "A"], [], ["A", "B"]⟩, false) :=
  ⟨fun depsOf fs md fuel cd pkg st h1 h2 h3 h4 =>
      dfs_depthCut depsOf fs md fuel pkg cd st h1 h2 h3 h4,
   fun depsOf fs fuel cd pkg st h1 h2 =>
      dfs_unfold_go depsOf fs 0 fuel pkg cd st h1 h2 (by omega),
   by decide⟩

/-- Witness for C3: the depth cut applied at a concrete new node at depth 1
with `max_depth = 1`. -/
theorem depth_limit_boundary_witness :
    ("B" : String) ∉ (initState : BuildState).recStack ∧
    ("B" : String) ∉ (initState : BuildState).visited ∧
    dfsBuildGraph (depsOfRepo [("B", ["C"])]) "" 1 1 "B" 1 initState =
      some (⟨setKey initState.graph "B"
              (applyFilter "" (depsOfRepo [("B", ["C"])] "B")),
             List.insert "B" initState.visited, initState.recStack,
             initState.calls ++ ["B"]⟩, false) :=
  ⟨by decide, by decide,
   depth_limit_boundary.1 (depsOfRepo [("B", ["C"])]) "" 1 0 1 "B" initState
     (by decide) (by decide) (by decide) (by decide)⟩

/-- C4: filtering.  An empty filter stores the source list unchanged; a
non-empty filter stores exactly the source list with the names containing
the substring removed, in source order (`List.filter`); in any build from
the empty state every stored list is the filtered source list of its key
and every queried name is the root or filter-surviving; in the concrete
run over `A -> [B, Btest, C]` with filter `"test"` the stored list for `A`
is `[B, C]` and `Btest` is neither queried (absent from the call log) nor
visited. -/
theorem filtering_correct :
    (∀ raw : List String, applyFilter "" raw = raw) ∧
    (∀ (fs : String) (raw : List String), fs ≠ "" →
      applyFilter fs raw = raw.filter (fun d => !(strContains fs d))) ∧
    (∀ (depsOf : String → List String) (fs : String) (md fuel cd : Nat)
      (pkg : String) (st' : BuildState) (b : Bool),
      dfsBuildGraph depsOf fs md fuel pkg cd initState = some (st', b) →
      (∀ k v, (k, v) ∈ st'.graph → v = applyFilter fs (depsOf k)) ∧
      (∀ x ∈ st'.calls, x = pkg ∨ FilterSafe fs x)) ∧
    dfsBuildGraph (depsOfRepo [("A", ["B", "Btest", "C"]), ("B", []), ("C", [])])
        "test" 0 10 "A" 0 initState =
      some (⟨[("A", ["B", "C"]), ("B", []), ("C", [])], ["C", "B", "A"], [],
             ["A", "B", "C"]⟩, false) := by
  refine ⟨applyFilter_empty, fun fs raw h => by simp [applyFilter, h], ?_, by decide⟩
  intro depsOf fs md fuel cd pkg st' b h
  obtain ⟨iv, -, -⟩ := build_invariant depsOf fs md fuel pkg cd st' b h
  have S := dfs_step depsOf fs md fuel pkg cd initState st' b h
  refine ⟨iv.2.2.2.2.2, ?_⟩
  intro x hx
  have hvis : x ∈ st'.visited := (iv.2.2.2.2.1 x).mp hx
  rcases S.2.2.1 x hvis with h' | h' | h'
  · simp [initState] at h'
  · exact Or.inl h'
  · exact Or.inr h'

/-- Witness for C4: the non-empty-filter equation and the whole-build parts
applied to the concrete filtered run. -/
theorem filtering_correct_witness :
    (("test" : String) ≠ "" ∧
      applyFilter "test" ["B", "Btest", "C"] =
        List.filter (fun d => !(strContains "test" d)) ["B", "Btest", "C"]) ∧
    (dfsBuildGraph (depsOfRepo [("A", ["B", "Btest", "C"]), ("B", []), ("C", [])])
        "test" 0 10 "A" 0 initState =
      some (⟨[("A", ["B", "C"]), ("B", []), ("C", [])], ["C", "B", "A"], [],
             ["A", "B", "C"]⟩, false) ∧
      ∀ k v, (k, v) ∈ ([("A", ["B", "C"]), ("B", []), ("C", [])] :
          List (String × List String)) →
        v = applyFilter "test"
          (depsOfRepo [("A", ["B", "Btest", "C"]), ("B", []), ("C", [])] k)) :=
  ⟨⟨by decide, filtering_correct.2.1 "test" ["B", "Btest", "C"] (by decide)⟩,
   ⟨by decide,
    ((filtering_correct.2.2.1
      (depsOfRepo [("A", ["B", "Btest", "C"]), ("B", []), ("C", [])]) "test" 0 10 0
      "A" ⟨[("A", ["B", "C"]), ("B", []), ("C", [])], ["C", "B", "A"], [],
           ["A", "B", "C"]⟩ false (by decide)).1)⟩⟩

/-- C5: memoization.  Re-reaching an already-visited node leaves the whole
state unchanged (in particular its stored list and the call log); and in
any build from the empty state the dependency source is queried at most
once per name (the call log has no duplicates) and exactly once for each
name that is a graph key (log membership coincides with key membership). -/
theorem memoization_correct :
    (∀ (depsOf : String → List String) (fs : String) (md fuel cd : Nat)
      (pkg : String) (st st' : BuildState) (b : Bool), pkg ∈ st.visited →
      dfsBuildGraph depsOf fs md (fuel + 1) pkg cd st = some (st', b) → st' = st) ∧
    (∀ (depsOf : String → List String) (fs : String) (md fuel cd : Nat)
      (pkg : String) (st' : BuildState) (b : Bool),
      dfsBuildGraph depsOf fs md fuel pkg cd initState = some (st', b) →
      st'.calls.Nodup ∧ (∀ x, x ∈ st'.calls ↔ x ∈ st'.graph.map Prod.fst)) := by
  refine ⟨fun depsOf fs md fuel cd pkg st st' b h2 h =>
    dfs_revisit_frame depsOf fs md fuel pkg cd st st' b h2 h, ?_⟩
  intro depsOf fs md fuel cd pkg st' b h
  obtain ⟨iv, -, -⟩ := build_invariant depsOf fs md fuel pkg cd st' b h
  exact ⟨iv.2.2.2.1, fun x => (iv.2.2.2.2.1 x).trans (iv.2.2.1 x).symm⟩

/-- Witness for C5: re-reaching visited `"X"` is a no-op, and the `A -> B`
build queries each key exactly once. -/
theorem memoization_correct_witness :
    ("X" : String) ∈ (⟨[("X", [])], ["X"], [], ["X"]⟩ : BuildState).visited ∧
    dfsBuildGraph (fun _ => []) "" 0 1 "X" 0 ⟨[("X", [])], ["X"], [], ["X"]⟩ =
      some (⟨[("X", [])], ["X"], [], ["X"]⟩, false) ∧
    (⟨[("A", ["B"]), ("B", [])], ["B", "A"], [], ["A", "B"]⟩ :
      BuildState).calls.Nodup :=
  ⟨by decide, by decide,
   (memoization_correct.2 (depsOfRepo [("A", ["B"]), ("B", [])]) "" 0 3 0 "A"
     ⟨[("A", ["B"]), ("B", [])], ["B", "A"], [], ["A", "B"]⟩ false (by decide)).1⟩

/-- C7: end-to-end scenario over
`{app: [lib1, lib2], lib1: [lib2], lib2: []}`: the build returns exactly
that graph with `cycle_detected = False`, and the reverse dependencies of
`lib2` are exactly `{app, lib1}`. -/
theorem end_to_end_scenario :
    dfsBuildGraph (depsOfRepo [("app", ["lib1", "lib2"]), ("lib1", ["lib2"]),
        ("lib2", [])]) "" 0 10 "app" 0 initState =
      some (⟨[("app", ["lib1", "lib2"]), ("lib1", ["lib2"]), ("lib2", [])],
             ["lib2", "lib1", "app"], [], ["app", "lib1", "lib2"]⟩, false) ∧
    getReverseDeps 10 "lib2" [("app", ["lib1", "lib2"]), ("lib1", ["lib2"]),
        ("lib2", [])] = some ["lib1", "app"] ∧
    (∀ x : String, x ∈ (["lib1", "app"] : List String) ↔ x = "app" ∨ x = "lib1") :=
  ⟨by decide, by decide, fun x => by simp; tauto⟩

/-- C9: frame property of the recursion stack.  Every completed call leaves
`rec_stack` exactly as it found it; from the empty initial state the final
recursion stack is empty while the argument node remains visited. -/
theorem recStack_frame :
    (∀ (depsOf : String → List String) (fs : String) (md fuel cd : Nat)
      (pkg : String) (st st' : BuildState) (b : Bool),
      dfsBuildGraph depsOf fs md fuel pkg cd st = some (st', b) →
      st'.recStack = st.recStack) ∧
    (∀ (depsOf : String → List String) (fs : String) (md fuel cd : Nat)
      (pkg : String) (st' : BuildState) (b : Bool),
      dfsBuildGraph depsOf fs md fuel pkg cd initState = some (st', b) →
      st'.recStack = [] ∧ pkg ∈ st'.visited) := by
  refine ⟨fun depsOf fs md fuel cd pkg st st' b h =>
    (dfs_step depsOf fs md fuel pkg cd st st' b h).2.1, ?_⟩
  intro depsOf fs md fuel cd pkg st' b h
  have hframe := (dfs_step depsOf fs md fuel pkg cd initState st' b h).2.1
  obtain ⟨-, pv, -⟩ := build_invariant depsOf fs md fuel pkg cd st' b h
  exact ⟨hframe, pv⟩

/-- Witness for C9: the `A -> B -> A` build ends with an empty recursion
stack and `A` visited. -/
theorem recStack_frame_witness :
    dfsBuildGraph (depsOfRepo [("A", ["B"]), ("B", ["A"])]) "" 0 10 "A" 0 initState =
      some (⟨[("A", ["B"]), ("B", ["A"])], ["B", "A"], [], ["A", "B"]⟩, true) ∧
    (⟨[("A", ["B"]), ("B", ["A"])], ["B", "A"], [], ["A", "B"]⟩ :
        BuildState).recStack = [] ∧
    ("A" : String) ∈ (⟨[("A", ["B"]), ("B", ["A"])], ["B", "A"], [], ["A", "B"]⟩ :
        BuildState).visited :=
  ⟨by decide,
   recStack_frame.2 (depsOfRepo [("A", ["B"]), ("B", ["A"])]) "" 0 10 0 "A"
     ⟨[("A", ["B"]), ("B", ["A"])], ["B", "A"], [], ["A", "B"]⟩ true (by decide)⟩

/-! ### The inverted adjacency view -/

lemma mem_revAdd (rev : List (String × List String)) (d0 p x d : String) :
    x ∈ depsOfRepo (revAdd rev d0 p) d ↔
      x ∈ depsOfRepo rev d ∨ (x = p ∧ d = d0) := by
  unfold depsOfRepo revAdd
  rw [lookup_setKey]
  by_cases h : d = d0
  · subst h
    simp
  · simp [h]

lemma mem_foldRevAdd (l : List String) (rev : List (String × List String))
    (p x d : String) :
    x ∈ depsOfRepo (l.foldl (fun r d0 => revAdd r d0 p) rev) d ↔
      x ∈ depsOfRepo rev d ∨ (x = p ∧ d ∈ l) := by
  induction l generalizing rev with
  | nil => simp
  | cons a as ih =>
    simp only [List.foldl_cons, ih, mem_revAdd, List.mem_cons]
    tauto

lemma mem_buildRev_aux (entries : List (String × List String))
    (rev : List (String × List String)) (x d : String) :
    x ∈ depsOfRepo
        (entries.foldl (fun r e => e.2.foldl (fun r' d0 => revAdd r' d0 e.1) r) rev)
        d ↔
      x ∈ depsOfRepo rev d ∨ ∃ deps, (x, deps) ∈ entries ∧ d ∈ deps := by
  induction entries generalizing rev with
  | nil => simp
  | cons e rest ih =>
    obtain ⟨p, l⟩ := e
    simp only [List.foldl_cons, ih, mem_foldRevAdd, List.mem_cons]
    constructor
    · rintro ((h | ⟨rfl, hd⟩) | ⟨deps, hmem, hd⟩)
      · exact Or.inl h
      · exact Or.inr ⟨l, Or.inl rfl, hd⟩
      · exact Or.inr ⟨deps, Or.inr hmem, hd⟩
    · rintro (h | ⟨deps, hmem | hmem, hd⟩)
      · exact Or.inl (Or.inl h)
      · injection hmem with h1 h2
        subst h1
        subst h2
        exact Or.inl (Or.inr ⟨rfl, hd⟩)
      · exact Or.inr ⟨deps, hmem, hd⟩

lemma mem_buildRev (graph : List (String × List String)) (x d : String) :
    x ∈ depsOfRepo (buildRev graph) d ↔ GEdge graph x d := by
  unfold buildRev GEdge
  rw [mem_buildRev_aux]
  simp [depsOfRepo]

/-! ### The reverse DFS: monotonicity, saturation, soundness, completeness -/

lemma dfsRev_visited (rev : List (String × List String)) (fuel : Nat)
    (node : String) (s : RevState) (h : node ∈ s.visited) :
    dfsRev rev (fuel + 1) node s = some s := by
  simp [dfsRev, h]

lemma dfsRev_go (rev : List (String × List String)) (fuel : Nat)
    (node : String) (s : RevState) (h : node ∉ s.visited) :
    dfsRev rev (fuel + 1) node s =
      revChildren (fun p s' => dfsRev rev fuel p s') (depsOfRepo rev node)
        { s with visited := List.insert node s.visited } := by
  simp [dfsRev, h, depsOfRepo]

lemma revChildren_mono (f : String → RevState → Option RevState)
    (hf : ∀ p s s', f p s = some s' → (∀ x ∈ s.visited, x ∈ s'.visited) ∧
      (∀ x ∈ s.result, x ∈ s'.result) ∧ p ∈ s'.visited) :
    ∀ (ps : List String) (s s' : RevState), revChildren f ps s = some s' →
      (∀ x ∈ s.visited, x ∈ s'.visited) ∧ (∀ x ∈ s.result, x ∈ s'.result) ∧
      (∀ p ∈ ps, p ∈ s'.result ∧ p ∈ s'.visited) := by
  intro ps
  induction ps with
  | nil =>
    intro s s' h
    simp only [revChildren, Option.some.injEq] at h
    subst h
    exact ⟨fun x hx => hx, fun x hx => hx, by simp⟩
  | cons p ps ih =>
    intro s s' h
    cases h1 : f p { s with result := List.insert p s.result } with
    | none =>
      simp only [revChildren, h1] at h
      exact Option.noConfusion h
    | some s1 =>
      simp only [revChildren, h1] at h
      have M1 := hf p _ s1 h1
      have M2 := ih s1 s' h
      refine ⟨fun x hx => M2.1 x (M1.1 x hx),
        fun x hx => M2.2.1 x (M1.2.1 x (List.mem_insert_iff.mpr (Or.inr hx))), ?_⟩
      intro q hq
      rcases List.mem_cons.mp hq with rfl | hq'
      · exact ⟨M2.2.1 q (M1.2.1 q (List.mem_insert_iff.mpr (Or.inl rfl))),
          M2.1 q M1.2.2⟩
      · exact M2.2.2 q hq'

lemma dfsRev_mono (rev : List (String × List String)) :
    ∀ (fuel : Nat) (node : String) (s s' : RevState),
      dfsRev rev fuel node s = some s' →
      (∀ x ∈ s.visited, x ∈ s'.visited) ∧ (∀ x ∈ s.result, x ∈ s'.result) ∧
      node ∈ s'.visited := by
  intro fuel
  induction fuel with
  | zero => intro node s s' h; exact Option.noConfusion h
  | succ fuel ih =>
    intro node s s' h
    by_cases hv : node ∈ s.visited
    · rw [dfsRev_visited rev fuel node s hv] at h
      obtain rfl := Option.some.inj h
      exact ⟨fun x hx => hx, fun x hx => hx, hv⟩
    · rw [dfsRev_go rev fuel node s hv] at h
      have M := revChildren_mono _ (fun p s₀ s₁ h₀ => ih p s₀ s₁ h₀)
        (depsOfRepo rev node) _ s' h
      exact ⟨fun x hx => M.1 x (List.mem_insert_iff.mpr (Or.inr hx)), M.2.1,
        M.1 node (List.mem_insert_iff.mpr (Or.inl rfl))⟩

lemma revChildren_post (rev : List (String × List String))
    (f : String → RevState → Option RevState)
    (hf_mono : ∀ p s s', f p s = some s' → (∀ x ∈ s.visited, x ∈ s'.visited) ∧
      (∀ x ∈ s.result, x ∈ s'.result) ∧ p ∈ s'.visited)
    (hf_post : ∀ p s s', f p s = some s' →
      ∀ v ∈ s'.visited, v ∈ s.visited ∨ RSat rev s' v) :
    ∀ (ps : List String) (s s' : RevState), revChildren f ps s = some s' →
      ∀ v ∈ s'.visited, v ∈ s.visited ∨ RSat rev s' v := by
  intro ps
  induction ps with
  | nil =>
    intro s s' h
    simp only [revChildren, Option.some.injEq] at h
    subst h
    exact fun v hv => Or.inl hv
  | cons p ps ih =>
    intro s s' h
    cases h1 : f p { s with result := List.insert p s.result } with
    | none =>
      simp only [revChildren, h1] at h
      exact Option.noConfusion h
    | some s1 =>
      simp only [revChildren, h1] at h
      intro v hv
      have M2 := revChildren_mono f hf_mono ps s1 s' h
      rcases ih s1 s' h v hv with h' | h'
      · rcases hf_post p _ s1 h1 v h' with h'' | h''
        · exact Or.inl h''
        · exact Or.inr (fun q hq => ⟨M2.2.1 q (h'' q hq).1, M2.1 q (h'' q hq).2⟩)
      · exact Or.inr h'

lemma dfsRev_post (rev : List (String × List String)) :
    ∀ (fuel : Nat) (node : String) (s s' : RevState),
      dfsRev rev fuel node s = some s' →
      ∀ v ∈ s'.visited, v ∈ s.visited ∨ RSat rev s' v := by
  intro fuel
  induction fuel with
  | zero => intro node s s' h; exact Option.noConfusion h
  | succ fuel ih =>
    intro node s s' h
    by_cases hv : node ∈ s.visited
    · rw [dfsRev_visited rev fuel node s hv] at h
      obtain rfl := Option.some.inj h
      exact fun v hv' => Or.inl hv'
    · rw [dfsRev_go rev fuel node s hv] at h
      intro v hv'
      have hmono := fun p s₀ s₁ h₀ => dfsRev_mono rev fuel p s₀ s₁ h₀
      have M := revChildren_mono _ hmono (depsOfRepo rev node) _ s' h
      rcases revChildren_post rev _ hmono (fun p s₀ s₁ h₀ => ih p s₀ s₁ h₀)
          (depsOfRepo rev node) _ s' h v hv' with h' | h'
      · rcases List.mem_insert_iff.mp h' with rfl | h''
        · exact Or.inr (fun q hq => M.2.2 q hq)
        · exact Or.inl h''
      · exact Or.inr h'

lemma revChildren_sound (rev : List (String × List String)) (target : String)
    (f : String → RevState → Option RevState)
    (hf : ∀ p s s', f p s = some s' →
      (p = target ∨ Relation.TransGen (fun a b => a ∈ depsOfRepo rev b) p target) →
      RevSound rev target s → RevSound rev target s') :
    ∀ (ps : List String) (s s' : RevState), revChildren f ps s = some s' →
      (∀ p ∈ ps, Relation.TransGen (fun a b => a ∈ depsOfRepo rev b) p target) →
      RevSound rev target s → RevSound rev target s' := by
  intro ps
  induction ps with
  | nil =>
    intro s s' h _ hS
    simp only [revChildren, Option.some.injEq] at h
    subst h
    exact hS
  | cons p ps ih =>
    intro s s' h hps hS
    cases h1 : f p { s with result := List.insert p s.result } with
    | none =>
      simp only [revChildren, h1] at h
      exact Option.noConfusion h
    | some s1 =>
      simp only [revChildren, h1] at h
      have hp := hps p (by simp)
      have hS0 : RevSound rev target { s with result := List.insert p s.result } := by
        refine ⟨hS.1, ?_⟩
        intro r hr
        rcases List.mem_insert_iff.mp hr with rfl | hr'
        · exact hp
        · exact hS.2 r hr'
      have hS1 := hf p _ s1 h1 (Or.inr hp) hS0
      exact ih s1 s' h (fun q hq => hps q (by simp [hq])) hS1

lemma dfsRev_sound (rev : List (String × List String)) (target : String) :
    ∀ (fuel : Nat) (node : String) (s s' : RevState),
      dfsRev rev fuel node s = some s' →
      (node = target ∨
        Relation.TransGen (fun a b => a ∈ depsOfRepo rev b) node target) →
      RevSound rev target s → RevSound rev target s' := by
  intro fuel
  induction fuel with
  | zero => intro node s s' h; exact Option.noConfusion h
  | succ fuel ih =>
    intro node s s' h hnode hS
    by_cases hv : node ∈ s.visited
    · rw [dfsRev_visited rev fuel node s hv] at h
      obtain rfl := Option.some.inj h
      exact hS
    · rw [dfsRev_go rev fuel node s hv] at h
      have hS1 : RevSound rev target { s with visited := List.insert node s.visited } := by
        refine ⟨?_, hS.2⟩
        intro v hv'
        rcases List.mem_insert_iff.mp hv' with rfl | hv''
        · exact hnode
        · exact hS.1 v hv''
      refine revChildren_sound rev target _ (fun p s₀ s₁ h₀ hp hS₀ => ih p s₀ s₁ h₀ hp hS₀)
        (depsOfRepo rev node) _ s' h ?_ hS1
      intro p hp
      rcases hnode with rfl | htg
      · exact Relation.TransGen.single hp
      · exact Relation.TransGen.head hp htg

lemma dfsRev_complete (rev : List (String × List String)) (target : String)
    (fuel : Nat) (s' : RevState) (h : dfsRev rev fuel target ⟨[], []⟩ = some s') :
    ∀ x, Relation.TransGen (fun a b => a ∈ depsOfRepo rev b) x target →
      x ∈ s'.result ∧ x ∈ s'.visited := by
  have htv : target ∈ s'.visited := (dfsRev_mono rev fuel target _ s' h).2.2
  have hsat : ∀ v ∈ s'.visited, RSat rev s' v := by
    intro v hv
    rcases dfsRev_post rev fuel target _ s' h v hv with h' | h'
    · simp at h'
    · exact h'
  intro x hx
  induction hx using Relation.TransGen.head_induction_on with
  | @base a hr => exact hsat target htv a hr
  | @ih a c hr htg IH => exact hsat c IH.2 a hr

lemma dfsRev_correct (graph : List (String × List String)) (target : String)
    (fuel : Nat) (s' : RevState)
    (h : dfsRev (buildRev graph) fuel target ⟨[], []⟩ = some s') :
    ∀ x, x ∈ s'.result ↔ TransDepends graph x target := by
  intro x
  constructor
  · intro hx
    have S := dfsRev_sound (buildRev graph) target fuel target _ s' h (Or.inl rfl)
      ⟨by simp, by simp⟩
    exact Relation.TransGen.mono
      (fun a b hab => (mem_buildRev graph a b).mp hab) (S.2 x hx)
  · intro hx
    have hx' : Relation.TransGen
        (fun a b => a ∈ depsOfRepo (buildRev graph) b) x target :=
      Relation.TransGen.mono (fun a b hab => (mem_buildRev graph a b).mpr hab) hx
    exact (dfsRev_complete (buildRev graph) target fuel s' h x hx').1

lemma revChildren_suff (rev : List (String × List String)) (univ : List String)
    (fuel : Nat)
    (hsuff : ∀ (node : String) (s : RevState), node ∈ univ →
      unvisitedCount univ s.visited < fuel → (dfsRev rev fuel node s).isSome) :
    ∀ (ps : List String) (s : RevState), (∀ p ∈ ps, p ∈ univ) →
      unvisitedCount univ s.visited < fuel →
      (revChildren (fun p s' => dfsRev rev fuel p s') ps s).isSome := by
  intro ps
  induction ps with
  | nil => intro s _ _; simp [revChildren]
  | cons p ps ih =>
    intro s hps hcount
    have h1 := hsuff p { s with result := List.insert p s.result } (hps p (by simp))
      hcount
    obtain ⟨s1, heq⟩ := Option.isSome_iff_exists.mp h1
    have hm := (dfsRev_mono rev fuel p _ s1 heq).1
    have hcount1 : unvisitedCount univ s1.visited < fuel :=
      lt_of_le_of_lt (unvisitedCount_mono univ hm) hcount
    have h2 := ih s1 (fun q hq => hps q (by simp [hq])) hcount1
    obtain ⟨s2, heq2⟩ := Option.isSome_iff_exists.mp h2
    simp [revChildren, heq, heq2]

lemma dfsRev_suff (rev : List (String × List String)) (univ : List String)
    (hclosed : ∀ n p, p ∈ depsOfRepo rev n → p ∈ univ) :
    ∀ (fuel : Nat) (node : String) (s : RevState), node ∈ univ →
      unvisitedCount univ s.visited < fuel → (dfsRev rev fuel node s).isSome := by
  intro fuel
  induction fuel with
  | zero => intro node s _ h; omega
  | succ fuel ih =>
    intro node s hnode hcount
    by_cases hv : node ∈ s.visited
    · rw [dfsRev_visited rev fuel node s hv]; simp
    · rw [dfsRev_go rev fuel node s hv]
      have hlt : unvisitedCount univ (List.insert node s.visited) <
          unvisitedCount univ s.visited :=
        unvisitedCount_strict univ hnode hv (List.mem_insert_iff.mpr (Or.inl rfl))
          (fun x hx => List.mem_insert_iff.mpr (Or.inr hx))
      exact revChildren_suff rev univ fuel (fun n s₀ h1 h2 => ih n s₀ h1 h2)
        (depsOfRepo rev node) _ (fun p hp => hclosed node p hp)
        (show unvisitedCount univ (List.insert node s.visited) < fuel by omega)

lemma getReverseDeps_terminates (graph : List (String × List String))
    (target : String) : ∃ fuel, (getReverseDeps fuel target graph).isSome := by
  refine ⟨unvisitedCount (univOf (buildRev graph) target) [] + 1, ?_⟩
  have h := dfsRev_suff (buildRev graph) (univOf (buildRev graph) target)
    (fun n p hp => List.mem_cons_of_mem _ (depsOfRepo_subset hp))
    (unvisitedCount (univOf (buildRev graph) target) [] + 1) target ⟨[], []⟩
    (by simp [univOf])
    (show unvisitedCount (univOf (buildRev graph) target) [] <
      unvisitedCount (univOf (buildRev graph) target) [] + 1 by omega)
  obtain ⟨s', heq⟩ := Option.isSome_iff_exists.mp h
  simp [getReverseDeps, heq]

lemma TransDepends_mem_keys {graph : List (String × List String)} {x t : String}
    (h : TransDepends graph x t) : x ∈ graph.map Prod.fst := by
  induction h using Relation.TransGen.head_induction_on with
  | @base a hr =>
    obtain ⟨deps, hmem, -⟩ := hr
    exact List.mem_map.mpr ⟨(a, deps), hmem, rfl⟩
  | @ih a c hr htg IH =>
    obtain ⟨deps, hmem, -⟩ := hr
    exact List.mem_map.mpr ⟨(a, deps), hmem, rfl⟩

/-- C6: reverse resolution.  `get_reverse_deps` terminates for every finite
graph (some fuel suffices, cycles included), and returns exactly the set of
names that transitively depend on the target via one or more forward edges;
on `{A: [B], C: [B]}` the reverse dependencies of `B` are exactly `{A, C}`
and those of `A` are empty. -/
theorem reverse_deps_correct :
    (∀ (graph : List (String × List String)) (target : String),
      ∃ fuel, (getReverseDeps fuel target graph).isSome) ∧
    (∀ (graph : List (String × List String)) (target : String) (fuel : Nat)
      (res : List String), getReverseDeps fuel target graph = some res →
      ∀ x, x ∈ res ↔ TransDepends graph x target) ∧
    getReverseDeps 10 "B" [("A", ["B"]), ("C", ["B"])] = some ["C", "A"] ∧
    (∀ x : String, x ∈ (["C", "A"] : List String) ↔ x = "A" ∨ x = "C") ∧
    getReverseDeps 10 "A" [("A", ["B"]), ("C", ["B"])] = some [] := by
  refine ⟨fun graph target => getReverseDeps_terminates graph target, ?_,
    by decide, fun x => by simp; tauto, by decide⟩
  intro graph target fuel res h x
  unfold getReverseDeps at h
  rw [Option.map_eq_some'] at h
  obtain ⟨s', heq, hres⟩ := h
  rw [← hres]
  exact dfsRev_correct graph target fuel s' heq x

/-- Witness for C6: the general characterisation applied to the one-edge
graph `{A: [B]}` at target `B`. -/
theorem reverse_deps_correct_witness :
    getReverseDeps 3 "B" [("A", ["B"])] = some ["A"] ∧
    (("A" : String) ∈ (["A"] : List String) ↔ TransDepends [("A", ["B"])] "A" "B") :=
  ⟨by decide, reverse_deps_correct.2.1 [("A", ["B"])] "B" 3 ["A"] (by decide) "A"⟩

/-- C10: every name returned by `get_reverse_deps` is a key of the forward
graph, and the target is in its own reverse-dependency set exactly when the
graph has a cycle through the target (a nonempty edge path from the target
to itself). -/
theorem reverse_deps_keys_and_self_cycle :
    ∀ (graph : List (String × List String)) (target : String) (fuel : Nat)
      (res : List String), getReverseDeps fuel target graph = some res →
      (∀ x ∈ res, x ∈ graph.map Prod.fst) ∧
      (target ∈ res ↔ TransDepends graph target target) := by
  intro graph target fuel res h
  have hcorr : ∀ x, x ∈ res ↔ TransDepends graph x target := by
    unfold getReverseDeps at h
    rw [Option.map_eq_some'] at h
    obtain ⟨s', heq, hres⟩ := h
    rw [← hres]
    exact dfsRev_correct graph target fuel s' heq
  exact ⟨fun x hx => TransDepends_mem_keys ((hcorr x).mp hx), hcorr target⟩

/-- Witness for C10: the self-loop graph `{A: [A]}`, where the target is
returned as its own reverse dependency. -/
theorem reverse_deps_keys_and_self_cycle_witness :
    getReverseDeps 3 "A" [("A", ["A"])] = some ["A"] ∧
    (("A" : String) ∈ (["A"] : List String) ↔ TransDepends [("A", ["A"])] "A" "A") :=
  ⟨by decide,
   (reverse_deps_keys_and_self_cycle [("A", ["A"])] "A" 3 ["A"] (by decide)).2⟩

/-! ### The ASCII tree renderer -/

lemma lookup_none_of_not_mem_keys {l : List (String × List String)} {k : String}
    (h : k ∉ l.map Prod.fst) : List.lookup k l = none := by
  induction l with
  | nil => rfl
  | cons e rest ih =>
    obtain ⟨a, b⟩ := e
    simp only [List.map_cons, List.mem_cons] at h
    push_neg at h
    simp [List.lookup_cons, beq_false_of_ne h.1, ih h.2]

lemma asciiChildren_suff (f : String → Bool → Option String)
    (hf : ∀ d l, (f d l).isSome) :
    ∀ deps, (asciiChildren f deps).isSome := by
  intro deps
  induction deps with
  | nil => simp [asciiChildren]
  | cons d ds ih =>
    cases ds with
    | nil => simpa [asciiChildren] using hf d true
    | cons d2 ds2 =>
      obtain ⟨s1, h1⟩ := Option.isSome_iff_exists.mp (hf d false)
      obtain ⟨s2, h2⟩ := Option.isSome_iff_exists.mp ih
      simp [asciiChildren, h1, h2]

lemma toAsciiTree_go (graph : List (String × List String)) (fuel : Nat)
    (root pfx : String) (isLast : Bool) (path : List String) (hp : root ∉ path) :
    toAsciiTree graph (fuel + 1) root pfx isLast path =
      match asciiChildren
          (fun d l => toAsciiTree graph fuel d
            (pfx ++ (if isLast then "    " else "│   ")) l (List.insert root path))
          ((List.lookup root graph).getD []) with
      | none => none
      | some rest =>
        some ((pfx ++ (if isLast then "└── " else "├── ") ++ root ++ "\n") ++ rest) := by
  simp only [toAsciiTree, if_neg hp]

lemma toAsciiTree_suff (graph : List (String × List String)) :
    ∀ (fuel : Nat) (root pfx : String) (isLast : Bool) (path : List String),
      unvisitedCount (graph.map Prod.fst) path < fuel →
      (toAsciiTree graph fuel root pfx isLast path).isSome := by
  intro fuel
  induction fuel with
  | zero => intro root pfx isLast path h; omega
  | succ fuel ih =>
    intro root pfx isLast path hcount
    by_cases hp : root ∈ path
    · simp [toAsciiTree, hp]
    · rw [toAsciiTree_go graph fuel root pfx isLast path hp]
      by_cases hk : root ∈ graph.map Prod.fst
      · have hchild : ∀ d l, (toAsciiTree graph fuel d
            (pfx ++ (if isLast then "    " else "│   ")) l
            (List.insert root path)).isSome := by
          intro d l
          apply ih
          have := unvisitedCount_strict (graph.map Prod.fst) hk hp
            (List.mem_insert_iff.mpr (Or.inl rfl))
            (fun x hx => List.mem_insert_iff.mpr (Or.inr hx))
          omega
        obtain ⟨rest, hr⟩ := Option.isSome_iff_exists.mp
          (asciiChildren_suff _ hchild ((List.lookup root graph).getD []))
        rw [hr]
        simp
      · rw [lookup_none_of_not_mem_keys hk]
        simp [asciiChildren]

/-- C8: the ASCII tree renderer terminates on every finite graph, cycles
included (some fuel suffices for the top-level call), because a node that
reappears on its own root-to-node rendering path is emitted with the cycle
annotation and none of its dependencies are expanded at that occurrence
(the guard equation). -/
theorem ascii_tree_terminates :
    (∀ (graph : List (String × List String)) (root : String),
      ∃ fuel, (toAsciiTree graph fuel root "" true []).isSome) ∧
    (∀ (graph : List (String × List String)) (fuel : Nat) (root pfx : String)
      (isLast : Bool) (path : List String), root ∈ path →
      toAsciiTree graph (fuel + 1) root pfx isLast path =
        some (pfx ++ (if isLast then "└── " else "├── ") ++ root ++ " (цикл)\n")) :=
  ⟨fun graph root => ⟨unvisitedCount (graph.map Prod.fst) [] + 1,
    toAsciiTree_suff graph _ root "" true [] (by omega)⟩,
   fun graph fuel root pfx isLast path hp => by simp [toAsciiTree, hp]⟩

/-- Witness for C8: the cycle-annotation equation at a node already on its
rendering path. -/
theorem ascii_tree_terminates_witness :
    ("A" : String) ∈ (["A"] : List String) ∧
    toAsciiTree [] 1 "A" "" true ["A"] =
      some ("" ++ (if true then "└── " else "├── ") ++ "A" ++ " (цикл)\n") :=
  ⟨by decide, ascii_tree_terminates.2 [] 0 "A" "" true ["A"] (by decide)⟩
